import Mathlib

/-!
Verification development for the qa-packet-validator repository.

The definitions below are a shallow embedding of src/app/app.py: the field
extractor, the numeric and consistency validators, the final-artifact rows, and
the progress-ledger write/read pair.  Python dicts are modeled as association
lists observed only through lookup and key membership; Python strings as
character lists; exceptions as Option / branch results; the binary-float
percent computation as an exact rational/natural floor (floating point itself
is not modeled, and every concrete value evaluated here is float-exact).
-/

set_option maxRecDepth 20000
set_option linter.unnecessarySeqFocus false

namespace QAV

/-- Whitespace characters of Python's regex class backslash-s and of str.strip,
restricted to ASCII (every text and label this program handles is ASCII). -/
def isWsC (c : Char) : Bool :=
  c == ' ' || c == '\t' || c == '\n' || c == '\r' || c == '\x0b' || c == '\x0c'

/-- Separator class of the positional pass, the regex class of whitespace, colon,
dot and hyphen used at app.py line 333. -/
def isSepC (c : Char) : Bool := isWsC c || c == ':' || c == '.' || c == '-'

/-- Separator class of the single-field fallback pattern (colon or whitespace),
app.py line 284. -/
def isColonWs (c : Char) : Bool := isWsC c || c == ':'

/-- ASCII lower-casing, the model of str.lower() for the ASCII data in play. -/
def toLowerL (s : List Char) : List Char := s.map Char.toLower

/-- Python slice text[a:b] on a character list. -/
def sliceL (t : List Char) (a b : Nat) : List Char := (t.drop a).take (b - a)

/-- Does pat occur in t starting at index i (plain substring comparison)? -/
def matchAt (t pat : List Char) (i : Nat) : Bool := (t.drop i).take pat.length == pat

/-- Non-overlapping left-to-right occurrence scan, the model of re.finditer on an
escaped literal pattern (app.py line 314): after a match at i the scan resumes
at i + pat.length, otherwise at i + 1. -/
def findFrom (t pat : List Char) : Nat → Nat → List Nat
  | 0, _ => []
  | fuel + 1, i =>
    if i + pat.length ≤ t.length then
      if matchAt t pat i then i :: findFrom t pat fuel (i + pat.length)
      else findFrom t pat fuel (i + 1)
    else []

def findAllNO (t pat : List Char) : List Nat := findFrom t pat (t.length + 1) 0

/-- The 23 required field labels, REQUIRED_FIELDS of app.py lines 274-281. -/
def REQUIRED_FIELDS : List String :=
  ["Customer Name", "Customer P.O. Number", "Customer Part Number",
   "Customer Part Number Revision", "AEM Part Number", "AEM Lot Number",
   "AEM Date Code", "AEM Cage Code", "Customer Quality Clauses",
   "FAI Form 3", "Solderability Test Report", "DPA", "Visual Inspection Record",
   "Shipment Quantity", "Reel Labels", "Certificate of Conformance", "Route Sheet",
   "Part Number", "Lot Number", "Date", "Resistance", "Dimension", "Test Result"]

/-- One label occurrence: start offset, end offset, and the field it belongs to. -/
structure Occ where
  start : Nat
  stop : Nat
  fld : String
deriving DecidableEq, Repr

/-- All (start, end, field) label occurrences over the lower-cased text,
collected per field in vocabulary order (app.py lines 311-315). -/
def occurrencesOf (t : List Char) : List Occ :=
  REQUIRED_FIELDS.flatMap fun f =>
    let lf := toLowerL f.toList
    (findAllNO (toLowerL t) lf).map fun i => ⟨i, i + lf.length, f⟩

/-- Stable insertion of an occurrence into a list sorted by start offset: o goes
in front of the first element whose start is not smaller. -/
def insOcc (o : Occ) : List Occ → List Occ
  | [] => [o]
  | p :: ps => if p.start < o.start then p :: insOcc o ps else o :: p :: ps

/-- Stable sort by start offset, the model of occurrences.sort keyed on the start
offset at app.py line 326: Python's sort is stable, and a stable sort by one key
has a unique result, so this insertion sort returns the same list. -/
def sortOccs (l : List Occ) : List Occ := l.foldr insOcc []

/-- One pass of the substitution replacing each maximal whitespace run by a
single space (app.py line 335).  The Bool records whether the scan is inside a
run whose space has already been emitted. -/
def collapseGo : Bool → List Char → List Char
  | _, [] => []
  | true, c :: cs => if isWsC c then collapseGo true cs else c :: collapseGo false cs
  | false, c :: cs => if isWsC c then ' ' :: collapseGo true cs else c :: collapseGo false cs

def collapseWs (s : List Char) : List Char := collapseGo false s

def rstripWs (s : List Char) : List Char := (s.reverse.dropWhile isWsC).reverse

/-- Python str.strip(): drop leading and trailing whitespace. -/
def pyStrip (s : List Char) : List Char := rstripWs (s.dropWhile isWsC)

/-- Value post-processing of the positional pass (app.py lines 333-335): drop the
leading separator run, collapse internal whitespace, strip. -/
def procVal (raw : List Char) : List Char := pyStrip (collapseWs (raw.dropWhile isSepC))

/-- A page's field map.  Python's dict is modeled as an association list whose
most recent binding comes first; the program only observes it through lookup
and key membership, so assignment is modeled by consing the new binding. -/
abbrev FieldMap := List (String × String)

def setField (f v : String) (m : FieldMap) : FieldMap := (f, v) :: m

def getField (f : String) (m : FieldMap) : Option String := m.lookup f

def hasField (f : String) (m : FieldMap) : Bool := (m.lookup f).isSome

/-- The positional extraction loop (app.py lines 328-338): each sorted
occurrence's value runs from its end offset to the next occurrence's start
offset (end of text for the last one); the processed value, when nonempty, is
stored capped to 1000 characters. -/
def posPass (t : List Char) : List Occ → FieldMap → FieldMap
  | [], m => m
  | o :: rest, m =>
    let ve : Nat := match rest with
      | [] => t.length
      | o2 :: _ => o2.start
    let v := procVal (sliceL t o.stop ve)
    posPass t rest (if v = [] then m else setField o.fld ⟨v.take 1000⟩ m)

/-- Given a label occurrence ending at i + patLen, the rest of the single-field
pattern of app.py line 284 (a colon/whitespace run, then a nonempty capture of
non-newline characters): the engine consumes the separator run greedily and
backtracks until the capture can start on a non-newline character; the capture
itself is greedy up to the next newline. -/
def restCapture (t : List Char) (i patLen : Nat) : Option (List Char) :=
  let j := i + patLen
  let m := j + ((t.drop j).takeWhile isColonWs).length
  if m < t.length then
    some ((t.drop m).takeWhile (fun c => c != '\n'))
  else
    match ((List.range' j (t.length - j)).filter
        (fun k => t.getD k '\x00' != '\n')).getLast? with
    | some k => some ((t.drop k).takeWhile (fun c => c != '\n'))
    | none => none

/-- The single-field fallback regex search (FIELD_PATTERNS, app.py line 284, used
at lines 319-322 and 341-345): the leftmost case-insensitive occurrence of the
label at which the rest of the pattern matches, with the capture stripped. -/
def fallbackVal (f : String) (t : List Char) : Option String :=
  let lt := toLowerL t
  let lf := toLowerL f.toList
  ((List.range (t.length + 1)).find? fun i =>
      matchAt lt lf i && (restCapture t i lf.length).isSome).bind fun i =>
    (restCapture t i lf.length).map fun cap => ⟨pyStrip cap⟩

/-- The fallback branch taken when no positional occurrence exists (app.py lines
318-323): the single-field regex is tried for every vocabulary field in order. -/
def fallbackAll (t : List Char) : FieldMap :=
  REQUIRED_FIELDS.foldl (fun m f =>
    match fallbackVal f t with
    | some v => setField f v m
    | none => m) []

/-- The post-positional retry (app.py lines 341-345): every vocabulary field
still missing is retried exactly once via its single-field regex. -/
def addFallbacks (t : List Char) (m0 : FieldMap) : FieldMap :=
  REQUIRED_FIELDS.foldl (fun m f =>
    if hasField f m then m
    else
      match fallbackVal f t with
      | some v => setField f v m
      | none => m) m0

/-- Translation of extract_fields, app.py lines 298-347. -/
def extract_fields (text : String) : FieldMap :=
  let t := text.toList
  if t = [] then []
  else
    let occs := occurrencesOf t
    if occs = [] then fallbackAll t
    else addFallbacks t (posPass t (sortOccs occs) [])

/-- Fuel-driven word splitter: the maximal runs of non-whitespace characters of
a string, in order. -/
def wordsGo : Nat → List Char → List (List Char)
  | 0, _ => []
  | _ + 1, [] => []
  | fuel + 1, c :: cs =>
    if isWsC c then wordsGo fuel (cs.dropWhile isWsC)
    else (c :: cs.takeWhile (fun x => !isWsC x)) :: wordsGo fuel (cs.dropWhile (fun x => !isWsC x))

def wordsOf (s : List Char) : List (List Char) := wordsGo (s.length + 1) s

/-- Whitespace normalisation as the specification words it: the words of the
string joined by single spaces. -/
def joinWords (s : List Char) : List Char := List.intercalate [' '] (wordsOf s)

/-- Value spans as the specification words them: each occurrence is paired with
the next occurrence's start offset, the last one with the end of the text. -/
def nextStarts (occs : List Occ) (len : Nat) : List Nat :=
  occs.tail.map Occ.start ++ [len]

/-- Spec-side positional entries: for each sorted occurrence, the span from its
end offset to the next start, leading separators stripped, internal whitespace
collapsed to single spaces, capped at 1000 characters; empty results dropped. -/
def specEntries (t : List Char) (occs : List Occ) : List (String × String) :=
  (occs.zip (nextStarts occs t.length)).filterMap fun p =>
    let v := joinWords ((sliceL t p.1.stop p.2).dropWhile isSepC)
    if v = [] then none else some (p.1.fld, ⟨v.take 1000⟩)

/-- Spec-side rendition of the extraction contract of claim C9, written from the
specification's sentence: sort all occurrences by start offset, record the
processed value spans, then retry each still-missing field exactly once via its
single-field regex. -/
def extractFieldsSpec (text : String) : FieldMap :=
  let t := text.toList
  if t = [] then []
  else
    let occs := occurrencesOf t
    if occs = [] then fallbackAll t
    else
      addFallbacks t
        ((specEntries t (sortOccs occs)).foldl (fun m fv => setField fv.1 fv.2 m) [])

/-- An exact nonnegative decimal, num / 10 ^ scale.  The float values the
program parses and compares are modeled as the decimals their literals denote
(binary-float rounding is not modeled). -/
structure DecNum where
  num : Nat
  scale : Nat
deriving DecidableEq, Repr

/-- The rational value of a decimal. -/
def DecNum.val (a : DecNum) : ℚ := (a.num : ℚ) / 10 ^ a.scale

/-- Comparison of two decimals by cross multiplication. -/
def DecNum.le (a b : DecNum) : Bool := a.num * 10 ^ b.scale ≤ b.num * 10 ^ a.scale

/-- The two numeric ranges of app.py lines 286-289, as exact decimals:
Resistance 95..105, Dimension 0.9..1.1. -/
def NUMERICAL_RANGES : List (String × DecNum × DecNum) :=
  [("Resistance", ⟨95, 0⟩, ⟨105, 0⟩), ("Dimension", ⟨9, 1⟩, ⟨11, 1⟩)]

def isNumC (c : Char) : Bool := c.isDigit || c == '.'

/-- First maximal run of digit / decimal-point characters, the model of taking
the head of the findall over the digits-and-dot class (app.py line 351). -/
def firstNumToken (v : List Char) : Option (List Char) :=
  let r := v.dropWhile (fun c => !isNumC c)
  if r = [] then none else some (r.takeWhile isNumC)

def digitsToNat (ds : List Char) : Nat := ds.foldl (fun a c => a * 10 + (c.toNat - 48)) 0

/-- Python float() on a token of digits and dots: defined when the token has at
most one dot and at least one digit (otherwise float raises, which the bare
except of app.py line 354 turns into a validation failure).  The value is the
exact decimal the token denotes. -/
def pyFloatNum (s : List Char) : Option DecNum :=
  if s.count '.' ≤ 1 ∧ s.any Char.isDigit then
    let ip := s.takeWhile (fun c => c != '.')
    let fp := (s.dropWhile (fun c => c != '.')).drop 1
    some ⟨digitsToNat ip * 10 ^ fp.length + digitsToNat fp, fp.length⟩
  else none

def numParsed (v : String) : Option DecNum := (firstNumToken v.toList).bind pyFloatNum

/-- Translation of validate_numerical, app.py lines 349-355; each failure point
(no numeric run, float parse error, unknown field) is caught by the bare except
and yields false. -/
def validate_numerical (f v : String) : Bool :=
  match numParsed v, NUMERICAL_RANGES.lookup f with
  | some q, some r => r.1.le q && q.le r.2
  | _, _ => false

inductive PageRef where
  | page (n : Nat)
  | allPages
deriving DecidableEq, Repr

/-- One anomaly row: page reference, field name, issue text. -/
structure Anom where
  ref : PageRef
  fld : String
  issue : String
deriving DecidableEq, Repr

/-- Missing-field anomalies of one page, app.py lines 378-380. -/
def missingAnoms (p : Nat) (m : FieldMap) : List Anom :=
  (REQUIRED_FIELDS.filter (fun f => !hasField f m)).map fun f => ⟨.page p, f, "Missing"⟩

/-- Out-of-range anomalies of one page, app.py lines 386-389. -/
def rangeAnoms (p : Nat) (m : FieldMap) : List Anom :=
  (NUMERICAL_RANGES.map Prod.fst).filterMap fun f =>
    match getField f m with
    | some v =>
      if validate_numerical f v then none
      else some ⟨.page p, f, "Out of range: " ++ v⟩
    | none => none

/-- All per-page anomaly rows, in the order the loop of app.py lines 378-389
appends them. -/
def pageAnoms (p : Nat) (m : FieldMap) : List Anom := missingAnoms p m ++ rangeAnoms p m

/-- The values of the field over the pages where it is present, app.py line 358. -/
def collectedValues (f : String) (allFields : List FieldMap) : List String :=
  (allFields.filter (fun m => hasField f m)).map fun m => (getField f m).getD ""

/-- Translation of check_consistency, app.py lines 357-359: the collected values
compared as a set of distinct values. -/
def check_consistency (f : String) (allFields : List FieldMap) : Bool :=
  (collectedValues f allFields).dedup.length == 1

def CONSISTENCY_FIELDS : List String := ["Part Number", "Lot Number", "Date"]

/-- The cross-page consistency pass, app.py lines 398-401. -/
def consistencyAnoms (allFields : List FieldMap) : List Anom :=
  (CONSISTENCY_FIELDS.filter (fun f => !check_consistency f allFields)).map
    fun f => ⟨.allPages, f, "Inconsistent values"⟩

/-- One data row of the final artifact: page, field, result, output. -/
structure CsvRow where
  page : Nat
  fld : String
  result : String
  output : String
deriving DecidableEq, Repr

/-- One page's block of the final artifact (app.py lines 410-414): one row per
vocabulary field, Found with the value or Missing with empty output. -/
def pageRows (p : Nat) (m : FieldMap) : List CsvRow :=
  REQUIRED_FIELDS.map fun f =>
    match getField f m with
    | some v => ⟨p, f, "Found", v⟩
    | none => ⟨p, f, "Missing", ""⟩

/-- The data rows below the header of the final artifact (app.py lines 404-414),
pages numbered from 1. -/
def csvRowsFrom : Nat → List FieldMap → List CsvRow
  | _, [] => []
  | p, m :: rest => pageRows p m ++ csvRowsFrom (p + 1) rest

def csvDataRows (allFields : List FieldMap) : List CsvRow := csvRowsFrom 1 allFields

/-- The files validate_pdf writes, in order (app.py lines 270-272, 404, 417, 454,
463): the final CSV, the per-field summary CSV, the anomaly workbook and the
dashboard image.  The function writes no other file; in particular it contains
no per-segment checkpoint write. -/
def validatePdfArtifacts (base : String) : List String :=
  [base ++ "_validation_summary.csv", base ++ "_field_info_summary.csv",
   base ++ "_validation_summary.xlsx", base ++ "_dashboard.png"]

def hasSubstr (s pat : String) : Bool := !(findAllNO s.toList pat.toList).isEmpty

/-- A progress record as get_progress_data returns it, app.py lines 173, 176-180. -/
structure ProgressData where
  percent : Int
  done : Bool
  csv_filename : Option String
deriving DecidableEq, Repr

def zeroProgress : ProgressData := ⟨0, false, none⟩

def decimalDigits : Nat → Nat → List Char
  | 0, _ => []
  | fuel + 1, n =>
    if n < 10 then [Char.ofNat (48 + n)]
    else decimalDigits fuel (n / 10) ++ [Char.ofNat (48 + n % 10)]

/-- Decimal rendering of a natural number, the model of Python str on ints. -/
def decimalOfNat (n : Nat) : String := ⟨decimalDigits (n + 1) n⟩

def intToDecimal (i : Int) : String :=
  match i with
  | .ofNat n => decimalOfNat n
  | .negSucc n => "-" ++ decimalOfNat (n + 1)

def digitsVal (ds : List Char) : Option Nat :=
  if ds ≠ [] ∧ ds.all Char.isDigit then
    some (ds.foldl (fun a c => a * 10 + (c.toNat - 48)) 0)
  else none

/-- Python int() on a string: optional surrounding whitespace, optional sign, a
nonempty digit run; anything else raises ValueError. -/
def pyIntOfString (s : String) : Option Int :=
  let t := rstripWs (s.toList.dropWhile isWsC)
  match t with
  | '-' :: ds => (digitsVal ds).map fun n => -(n : Int)
  | '+' :: ds => (digitsVal ds).map fun n => (n : Int)
  | ds => (digitsVal ds).map fun n => (n : Int)

/-- A backend hash read: none models an exception raised by the store client,
some h the field map the store returned (empty when the key is unknown). -/
abbrev RedisResp := Option (List (String × String))

/-- Translation of the store branch of get_progress_data, app.py lines 169-183:
an empty hash, a backend exception, or a field parse error all yield the zeroed
record. -/
def get_progress_data (resp : RedisResp) : ProgressData :=
  match resp with
  | none => zeroProgress
  | some h =>
    if h = [] then zeroProgress
    else
      let p? : Option Int :=
        match h.lookup "percent" with
        | none => some 0
        | some s => pyIntOfString s
      let d? : Option Bool :=
        match h.lookup "done" with
        | none => some false
        | some s => (pyIntOfString s).map fun n => n != 0
      match p?, d? with
      | some p, some d => ⟨p, d, h.lookup "csv_filename"⟩
      | _, _ => zeroProgress

/-- Translation of the in-memory branch of get_progress_data, app.py lines
184-186: the stored record, or the zeroed record for an unknown key. -/
def get_progress_mem (store : List (String × ProgressData)) (key : String) : ProgressData :=
  (store.lookup key).getD zeroProgress

/-- One set_progress call (app.py lines 108-128): each field is either supplied
or omitted, and only supplied fields are written to the backend hash. -/
structure PWrite where
  percent : Option Int
  csv : Option String
  done : Option Bool
deriving DecidableEq, Repr

/-- The percent computed after page k of N (app.py line 393), the truncation of
(k / N) * 100 idealised as an exact natural floor; the float computation agrees
at every value this development evaluates, in particular at k = N. -/
def loopPercent (k N : Nat) : Int := ((k * 100) / N : Nat)

/-- The per-page progress writes of the streaming loop (app.py lines 391-393):
one write per page, the last page included. -/
def pageWrites (N : Nat) : List PWrite :=
  (List.range N).map fun i => ⟨some (loopPercent (i + 1) N), none, none⟩

/-- The finalisation write of validate_pdf (app.py line 477): percent 100, the
result locator and the terminal flag in one call. -/
def finalizeWrite (csvName : String) : PWrite := ⟨some 100, some csvName, some true⟩

/-- All progress writes of one validate_pdf run, app.py lines 391-393 and 477. -/
def validatePdfWrites (N : Nat) (csvName : String) : List PWrite :=
  pageWrites N ++ [finalizeWrite csvName]

/-- The initial write of api_validate, app.py line 699 (csv_filename None is an
omitted field, done False is written as 0). -/
def initWrite : PWrite := ⟨some 0, none, some false⟩

/-- Outcome of one job body: the pipeline finished with a result name, or raised
after m pages were processed, with the error CSV written or not. -/
inductive JobOutcome where
  | ok (csvName : String) (N : Nat)
  | fail (N m : Nat) (errWritable : Bool) (errName : String)
deriving DecidableEq, Repr

/-- The ledger writes run_validation_local performs, app.py lines 700-731: the
pipeline's own writes, then the finally-block terminal write; on failure the
pages processed so far wrote their progress, and the terminal write carries the
error CSV name only when that file could be written. -/
def run_validation_local : JobOutcome → List PWrite
  | .ok name N => validatePdfWrites N name ++ [finalizeWrite name]
  | .fail N m w n =>
    (pageWrites N).take m ++ [⟨some 100, if w then some n else none, some true⟩]

abbrev Hash := List (String × String)

/-- The hash update of one set_progress call (app.py lines 113-128): each
supplied field is stringified and written.  The hash is only observed through
lookup and emptiness, so overwriting a field is modeled by consing the new
binding in front. -/
def applyWrite (h : Hash) (w : PWrite) : Hash :=
  let h1 := match w.percent with
    | some p => ("percent", intToDecimal p) :: h
    | none => h
  let h2 := match w.csv with
    | some c => ("csv_filename", c) :: h1
    | none => h1
  match w.done with
  | some b => ("done", if b then "1" else "0") :: h2
  | none => h2

/-- The hash states a poller can observe while a write sequence executes: one
state per prefix of the sequence, starting from the empty hash. -/
def ledgerStates (ws : List PWrite) : List Hash := ws.scanl applyWrite []

/-- The records successive reads of the key return along a write sequence. -/
def observations (ws : List PWrite) : List ProgressData :=
  (ledgerStates ws).map fun h => get_progress_data (some h)

/-- What one poller step must preserve: the percent does not decrease, and a
terminal record never reverts. -/
def pollerStep (a b : ProgressData) : Prop :=
  a.percent ≤ b.percent ∧ (a.done = true → b.done = true)

instance : IsTrans ProgressData pollerStep :=
  ⟨fun _ _ _ hab hbc => ⟨le_trans hab.1 hbc.1, fun h => hbc.2 (hab.2 h)⟩⟩

/-- A hash that decodes cleanly to the given percent and done flag: its stored
percent field is a rendered integer that parses back to p (or is absent with
p = 0), and likewise for done. -/
def HashOK (h : Hash) (p : Int) (d : Bool) : Prop :=
  (h = [] → p = 0 ∧ d = false) ∧
  (match h.lookup "percent" with
   | none => p = 0
   | some s => pyIntOfString s = some p) ∧
  (match h.lookup "done" with
   | none => d = false
   | some s => (pyIntOfString s).map (fun n => n != 0) = some d)

/-- Validity of a write sequence relative to the currently observable percent
and done flag: each write's percent is a bounded natural not below the current
one, and no write sets done back to false once it is true. -/
def writesOK : Int → Bool → List PWrite → Prop
  | _, _, [] => True
  | p, d, w :: ws =>
    (∀ q, w.percent = some q → p ≤ q ∧ ∃ n : Nat, n ≤ 100 ∧ q = (n : Int)) ∧
    (d = true → w.done ≠ some false) ∧
    writesOK (w.percent.getD p) (w.done.getD d) ws

/-- A page text that contains no vocabulary label, case-insensitively: no label
matches at any position of the lower-cased text. -/
def noLabelOccurs (text : String) : Prop :=
  ∀ f ∈ REQUIRED_FIELDS, ∀ i < text.toList.length,
    matchAt (toLowerL text.toList) (toLowerL f.toList) i = false

/-! ## Helper lemmas -/

theorem pageRows_length (p : Nat) (m : FieldMap) : (pageRows p m).length = 23 := by
  simp only [pageRows, List.length_map]
  rfl

theorem csvRowsFrom_length (ms : List FieldMap) : ∀ p, (csvRowsFrom p ms).length = ms.length * 23 := by
  induction ms with
  | nil => intro p; simp [csvRowsFrom]
  | cons m rest ih =>
    intro p
    simp only [csvRowsFrom, List.length_append, ih, List.length_cons, pageRows_length]
    omega

theorem check_consistency_iff_card (f : String) (ms : List FieldMap) :
    check_consistency f ms = true ↔ (collectedValues f ms).toFinset.card = 1 := by
  simp [check_consistency, List.card_toFinset]

theorem loopPercent_self {N : Nat} (hN : 0 < N) : loopPercent N N = 100 := by
  unfold loopPercent
  rw [Nat.mul_comm, Nat.mul_div_cancel _ hN]
  rfl

theorem loopPercent_lt {k N : Nat} (hN : 0 < N) (hk : k < N) : loopPercent k N < 100 := by
  unfold loopPercent
  have h : k * 100 / N < 100 := by
    rw [Nat.div_lt_iff_lt_mul hN]
    calc k * 100 < N * 100 := mul_lt_mul_of_pos_right hk (by norm_num)
    _ = 100 * N := Nat.mul_comm _ _
  exact_mod_cast h

theorem loopPercent_mono {k k' : Nat} (N : Nat) (h : k ≤ k') :
    loopPercent k N ≤ loopPercent k' N := by
  unfold loopPercent
  exact_mod_cast Nat.div_le_div_right (Nat.mul_le_mul_right _ h)

theorem loopPercent_le {k N : Nat} (hk : k ≤ N) (hN : 0 < N) : loopPercent k N ≤ 100 := by
  calc loopPercent k N ≤ loopPercent N N := loopPercent_mono N hk
  _ = 100 := loopPercent_self hN

theorem loopPercent_nonneg (k N : Nat) : 0 ≤ loopPercent k N := Int.ofNat_nonneg _

theorem pageWrites_count100 {N : Nat} (hN : 0 < N) :
    (pageWrites N).countP (fun w => w.percent == some 100) = 1 := by
  obtain ⟨n, rfl⟩ : ∃ n, N = n + 1 := ⟨N - 1, by omega⟩
  unfold pageWrites
  rw [List.range_succ, List.map_append, List.countP_append]
  have h1 : (((List.range n).map fun i =>
      (⟨some (loopPercent (i + 1) (n + 1)), none, none⟩ : PWrite)).countP
        (fun w => w.percent == some 100)) = 0 := by
    rw [List.countP_eq_zero]
    intro w hw
    simp only [List.mem_map, List.mem_range] at hw
    obtain ⟨i, hi, rfl⟩ := hw
    have hlt := loopPercent_lt (by omega : 0 < n + 1) (by omega : i + 1 < n + 1)
    intro hcontra
    have h1 : loopPercent (i + 1) (n + 1) = 100 :=
      Option.some.inj (beq_iff_eq.mp hcontra)
    omega
  rw [h1]
  simp [List.countP_cons, loopPercent_self (Nat.succ_pos n)]

theorem pageWrites_getLast {N : Nat} (hN : 0 < N) :
    (pageWrites N).getLast? = some ⟨some 100, none, none⟩ := by
  obtain ⟨n, rfl⟩ : ∃ n, N = n + 1 := ⟨N - 1, by omega⟩
  unfold pageWrites
  rw [List.range_succ, List.map_append, List.map_singleton, List.getLast?_concat]
  simp [loopPercent_self (Nat.succ_pos n)]

/-! ## Claim theorems -/

/-- Claim C1 (code_bug): the merged final artifact does contain exactly N * 23
data rows (one per page and vocabulary field), but the pipeline creates no
durable segment checkpoints at all: validate_pdf writes only the four final
artifacts, none of whose names carries a segment index, so a 10-page document
with segment size 4 yields 0 segment files where the claim (and the repository's
own test_e2e_segmenting.py) expects ceil(10/4) = 3. -/
theorem c1_rows_but_no_segment_checkpoints :
    ((validatePdfArtifacts "test_multipage").filter fun n => hasSubstr n "_segment_") = [] ∧
    (10 + 4 - 1) / 4 = 3 ∧
    (csvDataRows (List.replicate 10 (extract_fields ""))).length = 10 * 23 ∧
    ∀ ms : List FieldMap, (csvDataRows ms).length = ms.length * 23 := by
  refine ⟨by decide, by decide, ?_, fun ms => csvRowsFrom_length ms 1⟩
  rw [csvDataRows, csvRowsFrom_length, List.length_replicate]

/-- Claim C2 fails on the code: for a field absent from every page the collected
value list is empty, its set of distinct values has size 0, and check_consistency
returns false (0 = 1 is false), so an Inconsistent anomaly IS emitted for the
three checked fields on a document whose single page has no fields. -/
theorem c2_counterexample :
    check_consistency "Part Number" [] = false ∧
    consistencyAnoms [[]] =
      [⟨.allPages, "Part Number", "Inconsistent values"⟩,
       ⟨.allPages, "Lot Number", "Inconsistent values"⟩,
       ⟨.allPages, "Date", "Inconsistent values"⟩] := by decide

/-- Claim C2 amended: the consistency check returns true iff the set of distinct
values collected from the pages where the field is present has size exactly 1;
a field absent from every page yields false, and an Inconsistent anomaly is
emitted for a checked field exactly when that set's size differs from 1. -/
theorem c2_amended :
    (∀ (f : String) (ms : List FieldMap),
      check_consistency f ms = true ↔ (collectedValues f ms).toFinset.card = 1) ∧
    ∀ (ms : List FieldMap), ∀ f ∈ CONSISTENCY_FIELDS,
      ((⟨.allPages, f, "Inconsistent values"⟩ : Anom) ∈ consistencyAnoms ms ↔
        (collectedValues f ms).toFinset.card ≠ 1) := by
  refine ⟨check_consistency_iff_card, fun ms f hf => ?_⟩
  rw [ne_eq, ← check_consistency_iff_card]
  constructor
  · intro hmem h
    simp only [consistencyAnoms, List.mem_map, List.mem_filter,
      Bool.not_eq_true'] at hmem
    obtain ⟨g, ⟨_, hgc⟩, heq⟩ := hmem
    have hgf : g = f := by
      have := congrArg Anom.fld heq
      simpa using this
    rw [hgf, h] at hgc
    cases hgc
  · intro h
    simp only [consistencyAnoms, List.mem_map]
    refine ⟨f, ?_, rfl⟩
    simp only [List.mem_filter, Bool.not_eq_true']
    exact ⟨hf, by simpa using h⟩

theorem c2_amended_witness :
    ((⟨.allPages, "Date", "Inconsistent values"⟩ : Anom) ∈ consistencyAnoms [[]] ↔
      (collectedValues "Date" [[]]).toFinset.card ≠ 1) :=
  c2_amended.2 [[]] "Date" (by decide)

/-- Claim C3 fails on the code: get_progress_data performs no auto-heal
reconciliation; a stored record with percent 100, done 0 and a present result
locator is returned with done still false. -/
theorem c3_counterexample :
    (get_progress_data
      (some [("percent", "100"), ("done", "0"), ("csv_filename", "out.csv")])).done
      = false := by decide

/-- Claim C3 amended: reads reconcile nothing; the record is returned as stored,
so a read returns done = true only when the stored done field itself parses to a
nonzero integer, never by promotion from a high percent or a reachable result
artifact. -/
theorem c3_amended (h : Hash) (hd : (get_progress_data (some h)).done = true) :
    ∃ s n, h.lookup "done" = some s ∧ pyIntOfString s = some n ∧ n ≠ 0 := by
  by_cases h0 : h = []
  · rw [h0] at hd
    exact absurd hd (by decide)
  · rcases hp : h.lookup "percent" with _ | s₁ <;>
      rcases hdn : h.lookup "done" with _ | s₂ <;>
      simp only [get_progress_data, hp, hdn, if_neg h0] at hd
    · cases hd
    · rcases hn : pyIntOfString s₂ with _ | n <;> simp only [hn] at hd
      · cases hd
      · refine ⟨s₂, n, rfl, hn, ?_⟩
        simpa using hd
    · rcases hq : pyIntOfString s₁ with _ | q <;> simp only [hq] at hd <;> cases hd
    · rcases hq : pyIntOfString s₁ with _ | q <;>
        rcases hn : pyIntOfString s₂ with _ | n <;>
        simp only [hq, hn] at hd
      · cases hd
      · cases hd
      · cases hd
      · refine ⟨s₂, n, rfl, hn, ?_⟩
        simpa using hd

theorem c3_amended_witness :
    ∃ s n, ([("done", "1")] : Hash).lookup "done" = some s ∧
      pyIntOfString s = some n ∧ n ≠ 0 :=
  c3_amended [("done", "1")] (by decide)

/-- Claim C10: reading progress is total and never propagates a failure; an
unknown key and a backend exception both yield the zeroed record,
indistinguishably, a stored field that fails to parse is also swallowed into the
zeroed record, and the in-memory branch returns the zeroed record for an unknown
key. -/
theorem c10_get_progress_total :
    get_progress_data none = zeroProgress ∧
    get_progress_data (some []) = zeroProgress ∧
    get_progress_data none = get_progress_data (some []) ∧
    get_progress_data (some [("percent", "boom")]) = zeroProgress ∧
    ∀ (store : List (String × ProgressData)) (key : String),
      store.lookup key = none → get_progress_mem store key = zeroProgress := by
  refine ⟨by decide, by decide, by decide, by decide, fun store key hk => ?_⟩
  rw [get_progress_mem, hk]
  rfl

theorem c10_witness :
    get_progress_mem [("other", ⟨50, false, none⟩)] "missing" = zeroProgress :=
  c10_get_progress_total.2.2.2.2 _ _ (by decide)

theorem DecNum.le_iff_val (a b : DecNum) : a.le b = true ↔ a.val ≤ b.val := by
  simp only [DecNum.le, DecNum.val, decide_eq_true_eq,
    div_le_div_iff₀ (by positivity : (0:ℚ) < 10 ^ a.scale)
      (by positivity : (0:ℚ) < 10 ^ b.scale)]
  constructor
  · intro h; exact_mod_cast h
  · intro h; exact_mod_cast h

/-- Claim C7: the numeric validator accepts a value exactly when its first
digit/decimal-point run parses to a number inside the closed range of the field
(Resistance in 95..105, Dimension in 0.9..1.1); a parse failure returns false
rather than raising; Resistance against "100 ohms" validates, "110" does not and
yields the anomaly row with page, field and the out-of-range text. -/
theorem c7_validate_numerical :
    (∀ v : String, validate_numerical "Resistance" v = true ↔
      ∃ d, numParsed v = some d ∧ 95 ≤ d.val ∧ d.val ≤ 105) ∧
    (∀ v : String, validate_numerical "Dimension" v = true ↔
      ∃ d, numParsed v = some d ∧ 9/10 ≤ d.val ∧ d.val ≤ 11/10) ∧
    (∀ f v : String, numParsed v = none → validate_numerical f v = false) ∧
    validate_numerical "Resistance" "100 ohms" = true ∧
    validate_numerical "Resistance" "110" = false ∧
    rangeAnoms 1 [("Resistance", "110")] =
      [⟨.page 1, "Resistance", "Out of range: 110"⟩] := by
  refine ⟨?_, ?_, ?_, by decide, by decide, by decide⟩
  · intro v
    rcases hq : numParsed v with _ | q
    · simp [validate_numerical, hq]
    · simp only [validate_numerical, hq, NUMERICAL_RANGES, List.lookup]
      rw [show (("Resistance" == "Resistance") = true) from rfl]
      simp only [Bool.and_eq_true, DecNum.le_iff_val, Option.some.injEq]
      constructor
      · rintro ⟨h1, h2⟩
        refine ⟨q, rfl, ?_, ?_⟩
        · simpa [DecNum.val] using h1
        · simpa [DecNum.val] using h2
      · rintro ⟨d, rfl, h1, h2⟩
        refine ⟨?_, ?_⟩
        · simpa [DecNum.val] using h1
        · simpa [DecNum.val] using h2
  · intro v
    rcases hq : numParsed v with _ | q
    · simp [validate_numerical, hq]
    · simp only [validate_numerical, hq, NUMERICAL_RANGES, List.lookup]
      rw [show (("Dimension" == "Resistance") = false) from rfl,
        show (("Dimension" == "Dimension") = true) from rfl]
      simp only [Bool.and_eq_true, DecNum.le_iff_val, Option.some.injEq]
      constructor
      · rintro ⟨h1, h2⟩
        refine ⟨q, rfl, ?_, ?_⟩
        · simpa [DecNum.val] using h1
        · simpa [DecNum.val] using h2
      · rintro ⟨d, rfl, h1, h2⟩
        refine ⟨?_, ?_⟩
        · simpa [DecNum.val] using h1
        · simpa [DecNum.val] using h2
  · intro f v hv
    simp [validate_numerical, hv]

theorem c7_witness : validate_numerical "Resistance" "" = false :=
  c7_validate_numerical.2.2.1 "Resistance" "" (by decide)

/-- Claim C4 fails on the code: the streaming loop pushes progress after every
page including the last one, so for a one-page document the loop itself writes
percent 100, and the full write sequence of validate_pdf carries percent 100
twice, not once. -/
theorem c4_counterexample :
    pageWrites 1 = [⟨some 100, none, none⟩] ∧
    (validatePdfWrites 1 "r.csv").countP (fun w => w.percent == some 100) = 2 := by
  decide

/-- Claim C4 amended: the loop pushes one percent-only write per page, the final
page included (its write is percent 100 with neither locator nor done flag), and
the finalisation write repeats percent 100 together with the locator and the
terminal flag, so percent 100 is written twice per successful run. -/
theorem c4_amended (N : Nat) (name : String) (hN : 0 < N) :
    (pageWrites N).length = N ∧
    (∀ w ∈ pageWrites N, w.csv = none ∧ w.done = none) ∧
    (pageWrites N).getLast? = some ⟨some 100, none, none⟩ ∧
    (validatePdfWrites N name).countP (fun w => w.percent == some 100) = 2 ∧
    validatePdfWrites N name = pageWrites N ++ [finalizeWrite name] := by
  refine ⟨by simp [pageWrites], ?_, pageWrites_getLast hN, ?_, rfl⟩
  · intro w hw
    simp only [pageWrites, List.mem_map] at hw
    obtain ⟨i, _, rfl⟩ := hw
    exact ⟨rfl, rfl⟩
  · rw [validatePdfWrites, List.countP_append, pageWrites_count100 hN]
    rfl

theorem c4_amended_witness :
    (pageWrites 2).getLast? = some ⟨some 100, none, none⟩ ∧
    (validatePdfWrites 2 "r.csv").countP (fun w => w.percent == some 100) = 2 :=
  ⟨(c4_amended 2 "r.csv" (by decide)).2.2.1, (c4_amended 2 "r.csv" (by decide)).2.2.2.1⟩

/-- Claim C5 fails on the code: on the success path the terminal state is
written twice, once by validate_pdf's finalisation and once by the runner's
finally block, so the count of done-true writes is 2, not exactly 1. -/
theorem c5_counterexample :
    (run_validation_local (.ok "r.csv" 1)).countP (fun w => w.done == some true) = 2 := by
  decide

/-- Claim C5 amended: every job execution performs at least one terminal write
(two on the success path), always ends in a write carrying done = true and
percent 100, and a failed job whose error artifact was writable ends in a write
whose locator is the error CSV name; the runner returns normally on every
outcome, so no exception escapes. -/
theorem c5_amended (o : JobOutcome) :
    1 ≤ (run_validation_local o).countP (fun w => w.done == some true) ∧
    (∃ w, (run_validation_local o).getLast? = some w ∧
      w.done = some true ∧ w.percent = some 100) ∧
    (∀ N m n, o = .fail N m true n →
      ∃ w, (run_validation_local o).getLast? = some w ∧ w.csv = some n) := by
  cases o with
  | ok name N =>
    refine ⟨?_, ⟨finalizeWrite name, ?_, rfl, rfl⟩, ?_⟩
    · rw [run_validation_local, List.countP_append]
      simp [List.countP_cons, finalizeWrite]
    · rw [run_validation_local, List.getLast?_concat]
    · intro N' m' n' h
      cases h
  | fail N m wr n =>
    refine ⟨?_, ⟨⟨some 100, if wr then some n else none, some true⟩, ?_, rfl, rfl⟩, ?_⟩
    · rw [run_validation_local, List.countP_append]
      simp [List.countP_cons]
    · rw [run_validation_local, List.getLast?_concat]
    · intro N' m' n' h
      injection h with h1 h2 h3 h4
      subst h1; subst h2; subst h3; subst h4
      exact ⟨_, by rw [run_validation_local, List.getLast?_concat], rfl⟩

theorem c5_amended_witness :
    ∃ w, (run_validation_local (.fail 2 1 true "e.csv")).getLast? = some w ∧
      w.csv = some "e.csv" :=
  (c5_amended (.fail 2 1 true "e.csv")).2.2 2 1 "e.csv" rfl

theorem matchAt_of_ge {t pat : List Char} {i : Nat} (hp : pat ≠ [])
    (hi : t.length ≤ i) : matchAt t pat i = false := by
  cases hpat : pat with
  | nil => exact absurd hpat hp
  | cons c cs =>
    rw [matchAt, List.drop_eq_nil_of_le hi, List.take_nil]
    rfl

theorem findFrom_eq_nil {t pat : List Char}
    (h : ∀ j, j + pat.length ≤ t.length → matchAt t pat j = false) :
    ∀ fuel i, findFrom t pat fuel i = [] := by
  intro fuel
  induction fuel with
  | zero => intro i; rfl
  | succ f ih =>
    intro i
    rw [findFrom]
    by_cases hle : i + pat.length ≤ t.length
    · rw [if_pos hle, h i hle, if_neg (by simp)]
      exact ih (i + 1)
    · rw [if_neg hle]

theorem required_fields_ne_nil : ∀ f ∈ REQUIRED_FIELDS, f.toList ≠ [] := by decide

theorem occurrencesOf_eq_nil {text : String} (hno : noLabelOccurs text) :
    occurrencesOf text.toList = [] := by
  rw [occurrencesOf, List.flatMap_eq_nil_iff]
  intro f hf
  have hall : findAllNO (toLowerL text.toList) (toLowerL f.toList) = [] := by
    rw [findAllNO]
    refine findFrom_eq_nil (fun j hj => ?_) _ 0
    have hlen : (toLowerL text.toList).length = text.toList.length := List.length_map _ _
    have hplen : (toLowerL f.toList).length = f.toList.length := List.length_map _ _
    have hfne : f.toList ≠ [] := required_fields_ne_nil f hf
    have hpos : 0 < f.toList.length := List.length_pos.mpr hfne
    have hjlt : j < text.toList.length := by
      rw [hlen, hplen] at hj
      omega
    exact hno f hf j hjlt
  show (findAllNO (toLowerL text.toList) (toLowerL f.toList)).map
      (fun i => Occ.mk i (i + (toLowerL f.toList).length) f) = []
  rw [hall]
  rfl

theorem fallbackVal_eq_none {text : String} (hno : noLabelOccurs text)
    (f : String) (hf : f ∈ REQUIRED_FIELDS) : fallbackVal f text.toList = none := by
  rw [fallbackVal]
  have hfind : ((List.range (text.toList.length + 1)).find? fun i =>
      matchAt (toLowerL text.toList) (toLowerL f.toList) i &&
        (restCapture text.toList i (toLowerL f.toList).length).isSome) = none := by
    rw [List.find?_eq_none]
    intro i hi
    have hm : matchAt (toLowerL text.toList) (toLowerL f.toList) i = false := by
      rcases Nat.lt_or_ge i text.toList.length with hlt | hge
      · exact hno f hf i hlt
      · refine matchAt_of_ge ?_ ?_
        · have := required_fields_ne_nil f hf
          simpa [toLowerL] using this
        · simpa [toLowerL] using hge
    rw [hm]
    simp
  rw [hfind]
  rfl

theorem fallbackAll_eq_nil {text : String} (hno : noLabelOccurs text) :
    fallbackAll text.toList = [] := by
  rw [fallbackAll]
  have hgen : ∀ (l : List String), (∀ f ∈ l, f ∈ REQUIRED_FIELDS) →
      ∀ m : FieldMap, (l.foldl (fun m f =>
        match fallbackVal f text.toList with
        | some v => setField f v m
        | none => m) m) = m := by
    intro l
    induction l with
    | nil => intro _ m; rfl
    | cons g gs ih =>
      intro hsub m
      rw [List.foldl_cons, fallbackVal_eq_none hno g (hsub g (by simp))]
      exact ih (fun f hf => hsub f (by simp [hf])) m
  exact hgen REQUIRED_FIELDS (fun f hf => hf) []

theorem extract_fields_eq_nil {text : String} (hno : noLabelOccurs text) :
    extract_fields text = [] := by
  rw [extract_fields]
  by_cases h0 : text.toList = []
  · rw [if_pos h0]
  · rw [if_neg h0, occurrencesOf_eq_nil hno, if_pos rfl]
    exact fallbackAll_eq_nil hno

/-- Claim C8: a page whose text is empty or contains no vocabulary label yields
an empty field map; validating it emits exactly 23 anomalies, one Missing per
vocabulary field, and its block of the final artifact has zero Found rows. -/
theorem c8_no_label_page (text : String) (hno : noLabelOccurs text) (p : Nat) :
    extract_fields text = [] ∧
    pageAnoms p (extract_fields text) =
      REQUIRED_FIELDS.map (fun f => ⟨.page p, f, "Missing"⟩) ∧
    (pageAnoms p (extract_fields text)).length = 23 ∧
    (pageRows p (extract_fields text)).countP (fun r => r.result == "Found") = 0 := by
  have hempty := extract_fields_eq_nil hno
  rw [hempty]
  have hmiss : missingAnoms p [] = REQUIRED_FIELDS.map (fun f => ⟨.page p, f, "Missing"⟩) := by
    simp [missingAnoms, hasField]
  have hrange : rangeAnoms p ([] : FieldMap) = [] := by
    simp [rangeAnoms, getField, NUMERICAL_RANGES]
  have hanoms : pageAnoms p [] = REQUIRED_FIELDS.map (fun f => ⟨.page p, f, "Missing"⟩) := by
    rw [pageAnoms, hmiss, hrange, List.append_nil]
  refine ⟨rfl, hanoms, ?_, ?_⟩
  · rw [hanoms, List.length_map]
    rfl
  · rw [List.countP_eq_zero]
    intro r hr
    simp only [pageRows, List.mem_map, getField, List.lookup_nil] at hr
    obtain ⟨f, _, rfl⟩ := hr
    simp

theorem c8_witness :
    extract_fields "xyz" = [] ∧
    pageAnoms 1 (extract_fields "xyz") =
      REQUIRED_FIELDS.map (fun f => ⟨.page 1, f, "Missing"⟩) ∧
    (pageAnoms 1 (extract_fields "xyz")).length = 23 ∧
    (pageRows 1 (extract_fields "xyz")).countP (fun r => r.result == "Found") = 0 :=
  c8_no_label_page "xyz" (by unfold noLabelOccurs; decide) 1

theorem dropWhile_len_le (p : Char → Bool) : ∀ s : List Char, (s.dropWhile p).length ≤ s.length := by
  intro s
  induction s with
  | nil => simp
  | cons c cs ih =>
    rw [List.dropWhile_cons]
    by_cases hc : p c = true
    · rw [if_pos hc]
      exact Nat.le_trans ih (Nat.le_succ _)
    · rw [if_neg hc]

theorem dropWhile_all_false {p : Char → Bool} :
    ∀ {l : List Char}, (∀ x ∈ l, p x = false) → l.dropWhile p = l := by
  intro l h
  cases l with
  | nil => rfl
  | cons c cs =>
    rw [List.dropWhile_cons, if_neg (by simp [h c (by simp)])]

theorem head_dropWhile_false {p : Char → Bool} :
    ∀ {l : List Char} {b : Char} {bs : List Char}, l.dropWhile p = b :: bs → p b = false := by
  intro l
  induction l with
  | nil => intro b bs h; cases h
  | cons c cs ih =>
    intro b bs h
    rw [List.dropWhile_cons] at h
    by_cases hc : p c = true
    · rw [if_pos hc] at h
      exact ih h
    · rw [if_neg hc] at h
      cases h
      simpa using hc

theorem rstripWs_append (xs ys : List Char) :
    rstripWs (xs ++ ys) = if rstripWs ys = [] then rstripWs xs else xs ++ rstripWs ys := by
  rw [rstripWs, List.reverse_append, List.dropWhile_append]
  by_cases h : (ys.reverse.dropWhile isWsC).isEmpty
  · have hnil : rstripWs ys = [] := by
      rw [rstripWs, List.isEmpty_iff.mp h]
      rfl
    rw [if_pos h, if_pos hnil]
    rfl
  · have hne : rstripWs ys ≠ [] := by
      intro hcon
      rw [rstripWs] at hcon
      have := congrArg List.reverse hcon
      rw [List.reverse_reverse] at this
      rw [List.isEmpty_iff] at h
      exact h this
    rw [if_neg h, if_neg hne, List.reverse_append, List.reverse_reverse, rstripWs]

theorem rstripWs_eq_nil_iff {l : List Char} :
    rstripWs l = [] ↔ ∀ x ∈ l, isWsC x = true := by
  rw [rstripWs]
  constructor
  · intro h x hx
    have := congrArg List.reverse h
    rw [List.reverse_reverse] at this
    have hall := List.dropWhile_eq_nil_iff.mp this
    exact hall x (List.mem_reverse.mpr hx)
  · intro h
    have : l.reverse.dropWhile isWsC = [] :=
      List.dropWhile_eq_nil_iff.mpr (fun x hx => h x (List.mem_reverse.mp hx))
    rw [this]
    rfl

theorem collapseGo_true_eq (cs : List Char) :
    collapseGo true cs = collapseGo false (cs.dropWhile isWsC) := by
  induction cs with
  | nil => rfl
  | cons c cs ih =>
    by_cases hc : isWsC c = true
    · rw [collapseGo, if_pos hc, List.dropWhile_cons, if_pos hc, ih]
    · rw [collapseGo, if_neg hc, List.dropWhile_cons, if_neg hc, collapseGo, if_neg hc]

theorem collapseGo_append_nonws :
    ∀ {w : List Char} (r : List Char), (∀ c ∈ w, isWsC c = false) →
      collapseGo false (w ++ r) = w ++ collapseGo false r := by
  intro w
  induction w with
  | nil => intro r _; rfl
  | cons c cs ih =>
    intro r hw
    rw [List.cons_append, collapseGo, if_neg (by simp [hw c (by simp)]),
      ih r (fun x hx => hw x (by simp [hx]))]
    rfl

theorem wordsGo_congr : ∀ (f1 : Nat) (s : List Char) (f2 : Nat),
    s.length < f1 → s.length < f2 → wordsGo f1 s = wordsGo f2 s := by
  intro f1
  induction f1 with
  | zero => intro s f2 h1 _; omega
  | succ f ih =>
    intro s f2 h1 h2
    cases f2 with
    | zero => omega
    | succ g =>
      cases s with
      | nil => rfl
      | cons c cs =>
        rw [wordsGo, wordsGo]
        simp only [List.length_cons] at h1 h2
        by_cases hc : isWsC c = true
        · rw [if_pos hc, if_pos hc]
          exact ih _ _ (by have := dropWhile_len_le isWsC cs; omega)
            (by have := dropWhile_len_le isWsC cs; omega)
        · rw [if_neg hc, if_neg hc,
            ih (cs.dropWhile fun x => !isWsC x) g
              (by have := dropWhile_len_le (fun x => !isWsC x) cs; omega)
              (by have := dropWhile_len_le (fun x => !isWsC x) cs; omega)]

theorem wordsOf_cons (c : Char) (cs : List Char) :
    wordsOf (c :: cs) =
      if isWsC c then wordsOf (cs.dropWhile isWsC)
      else (c :: cs.takeWhile (fun x => !isWsC x)) ::
        wordsOf (cs.dropWhile (fun x => !isWsC x)) := by
  rw [wordsOf, List.length_cons, wordsGo]
  by_cases hc : isWsC c = true
  · rw [if_pos hc, if_pos hc, wordsOf]
    exact wordsGo_congr _ _ _ (by have := dropWhile_len_le isWsC cs; omega)
      (Nat.lt_succ_self _)
  · rw [if_neg hc, if_neg hc, wordsOf]
    rw [wordsGo_congr (cs.length + 1) (cs.dropWhile fun x => !isWsC x)
      ((cs.dropWhile fun x => !isWsC x).length + 1)
      (by have := dropWhile_len_le (fun x => !isWsC x) cs; omega)
      (Nat.lt_succ_self _)]

theorem wordsOf_dropWhile_ws : ∀ s : List Char, wordsOf (s.dropWhile isWsC) = wordsOf s := by
  intro s
  cases s with
  | nil => rfl
  | cons c cs =>
    by_cases hc : isWsC c = true
    · rw [List.dropWhile_cons, if_pos hc, wordsOf_cons c cs, if_pos hc]
    · rw [List.dropWhile_cons, if_neg hc]

theorem intercalate_space_single (w : List Char) : List.intercalate [' '] [w] = w := by
  simp [List.intercalate]

theorem intercalate_space_cons (w w2 : List Char) (ws : List (List Char)) :
    List.intercalate [' '] (w :: w2 :: ws) =
      w ++ ' ' :: List.intercalate [' '] (w2 :: ws) := by
  simp [List.intercalate]

theorem rstripWs_all_nonws {w : List Char} (hw : ∀ x ∈ w, isWsC x = false) :
    rstripWs w = w := by
  rw [rstripWs, dropWhile_all_false (fun x hx => hw x (List.mem_reverse.mp hx)),
    List.reverse_reverse]

theorem pyStrip_all_nonws {w : List Char} (hw : ∀ x ∈ w, isWsC x = false) :
    pyStrip w = w := by
  rw [pyStrip, dropWhile_all_false hw, rstripWs_all_nonws hw]

/-- Core normalisation refinement: dropping a leading whitespace run, collapsing
every whitespace run to one space, and stripping both ends is the same as
joining the words of the string with single spaces. -/
theorem pyStrip_collapse_eq_joinWords :
    ∀ (n : Nat) (s : List Char), s.length ≤ n → pyStrip (collapseWs s) = joinWords s := by
  intro n
  induction n with
  | zero =>
    intro s hs
    have h0 : s = [] := List.length_eq_zero.mp (Nat.le_zero.mp hs)
    subst h0
    rfl
  | succ n ih =>
    intro s hs
    cases s with
    | nil => rfl
    | cons c cs =>
      simp only [List.length_cons] at hs
      have hcs : cs.length ≤ n := by omega
      by_cases hc : isWsC c = true
      · have h1 : collapseWs (c :: cs) = ' ' :: collapseWs (cs.dropWhile isWsC) := by
          rw [collapseWs, collapseGo, if_pos hc, collapseGo_true_eq]
          rfl
        have h2 : pyStrip (' ' :: collapseWs (cs.dropWhile isWsC))
            = pyStrip (collapseWs (cs.dropWhile isWsC)) := by
          rw [pyStrip, pyStrip, List.dropWhile_cons, if_pos (by decide)]
        rw [h1, h2, ih _ (Nat.le_trans (dropWhile_len_le isWsC cs) hcs),
          joinWords, joinWords, wordsOf_cons c cs, if_pos hc]
      · have hwall : ∀ x ∈ c :: cs.takeWhile (fun x => !isWsC x), isWsC x = false := by
          intro x hx
          rcases List.mem_cons.mp hx with rfl | hx2
          · simpa using hc
          · have := List.mem_takeWhile_imp hx2
            simpa using this
        have hsplit : c :: cs =
            (c :: cs.takeWhile (fun x => !isWsC x)) ++ cs.dropWhile (fun x => !isWsC x) := by
          rw [List.cons_append, List.takeWhile_append_dropWhile]
        have hcol : collapseWs (c :: cs) =
            (c :: cs.takeWhile (fun x => !isWsC x)) ++
              collapseWs (cs.dropWhile (fun x => !isWsC x)) := by
          conv_lhs => rw [hsplit]
          exact collapseGo_append_nonws _ hwall
        have hjw : joinWords (c :: cs) =
            List.intercalate [' ']
              ((c :: cs.takeWhile (fun x => !isWsC x)) ::
                wordsOf (cs.dropWhile (fun x => !isWsC x))) := by
          rw [joinWords, wordsOf_cons, if_neg hc]
        rcases hr : cs.dropWhile (fun x => !isWsC x) with _ | ⟨b, r'⟩
        · have htake : cs.takeWhile (fun x => !isWsC x) = cs := by
            have h := List.takeWhile_append_dropWhile (p := fun x => !isWsC x) (l := cs)
            rw [hr, List.append_nil] at h
            exact h
          rw [hcol, hr]
          show pyStrip ((c :: cs.takeWhile fun x => !isWsC x) ++ collapseWs []) = _
          rw [show collapseWs [] = [] from rfl, List.append_nil,
            pyStrip_all_nonws hwall, hjw, hr]
          show _ = List.intercalate [' '] [c :: cs.takeWhile fun x => !isWsC x]
          rw [intercalate_space_single]
        · have hb : isWsC b = true := by
            have := head_dropWhile_false hr
            simpa using this
          have hrlen : r'.length + 1 ≤ cs.length := by
            have h := dropWhile_len_le (fun x => !isWsC x) cs
            rw [hr] at h
            simpa using h
          have hcolr : collapseWs (b :: r') = ' ' :: collapseWs (r'.dropWhile isWsC) := by
            rw [collapseWs, collapseGo, if_pos hb, collapseGo_true_eq]
            rfl
          have hdropstep : pyStrip ((c :: cs.takeWhile fun x => !isWsC x) ++
              (' ' :: collapseWs (r'.dropWhile isWsC))) =
              rstripWs ((c :: cs.takeWhile fun x => !isWsC x) ++
                (' ' :: collapseWs (r'.dropWhile isWsC))) := by
            rw [pyStrip, List.cons_append, List.dropWhile_cons, if_neg hc]
          have hihr : pyStrip (collapseWs (r'.dropWhile isWsC)) =
              joinWords (r'.dropWhile isWsC) := by
            refine ih _ (Nat.le_trans (dropWhile_len_le isWsC r') ?_)
            omega
          rw [hcol, hr, hcolr, hdropstep,
            rstripWs_append (c :: cs.takeWhile fun x => !isWsC x)
              (' ' :: collapseWs (r'.dropWhile isWsC)), hjw, hr,
            show wordsOf (b :: r') = wordsOf (r'.dropWhile isWsC) from by
              rw [wordsOf_cons, if_pos hb]]
          rcases hr2 : r'.dropWhile isWsC with _ | ⟨d, ds⟩
          · rw [show collapseWs [] = [] from rfl]
            rw [if_pos (by decide), rstripWs_all_nonws hwall]
            show _ = List.intercalate [' '] [c :: cs.takeWhile fun x => !isWsC x]
            rw [intercalate_space_single]
          · have hd : isWsC d = false := head_dropWhile_false hr2
            have hd' : ¬ isWsC d = true := by simp [hd]
            have hCcons : collapseWs (d :: ds) = d :: collapseGo false ds := by
              rw [collapseWs, collapseGo, if_neg hd']
            have hCne : rstripWs (collapseWs (d :: ds)) ≠ [] := by
              intro hcon
              have hall := rstripWs_eq_nil_iff.mp hcon
              have hdmem : d ∈ collapseWs (d :: ds) := by
                rw [hCcons]
                simp
              have := hall d hdmem
              rw [hd] at this
              cases this
            have hstep1 : rstripWs (' ' :: collapseWs (d :: ds)) =
                ' ' :: rstripWs (collapseWs (d :: ds)) := by
              have h := rstripWs_append [' '] (collapseWs (d :: ds))
              rw [if_neg hCne] at h
              simpa using h
            have hstepne : rstripWs (' ' :: collapseWs (d :: ds)) ≠ [] := by
              rw [hstep1]
              simp
            rw [if_neg hstepne, hstep1]
            have hCstrip : rstripWs (collapseWs (d :: ds)) =
                pyStrip (collapseWs (d :: ds)) := by
              rw [pyStrip, hCcons, List.dropWhile_cons, if_neg hd']
            rw [hCstrip, ← hr2, hihr]
            rw [hr2] at hihr ⊢
            have hwords : wordsOf (d :: ds) =
                (d :: ds.takeWhile fun x => !isWsC x) ::
                  wordsOf (ds.dropWhile fun x => !isWsC x) := by
              rw [wordsOf_cons, if_neg hd']
            rw [hwords, intercalate_space_cons]
            rw [joinWords, hwords]

theorem specEntries_single (t : List Char) (o : Occ) :
    specEntries t [o] =
      if joinWords ((sliceL t o.stop t.length).dropWhile isSepC) = [] then []
      else [(o.fld,
        (⟨(joinWords ((sliceL t o.stop t.length).dropWhile isSepC)).take 1000⟩ : String))] := by
  simp only [specEntries, nextStarts, List.tail_cons, List.map_nil, List.nil_append,
    List.zip_cons_cons, List.zip_nil_right, List.filterMap_cons, List.filterMap_nil]
  split <;> simp_all

theorem specEntries_cons2 (t : List Char) (o o2 : Occ) (rs : List Occ) :
    specEntries t (o :: o2 :: rs) =
      (if joinWords ((sliceL t o.stop o2.start).dropWhile isSepC) = [] then []
       else [(o.fld,
         (⟨(joinWords ((sliceL t o.stop o2.start).dropWhile isSepC)).take 1000⟩ : String))]) ++
        specEntries t (o2 :: rs) := by
  simp only [specEntries, nextStarts, List.tail_cons, List.map_cons, List.cons_append,
    List.zip_cons_cons, List.filterMap_cons]
  split <;> simp_all

theorem posPass_eq_spec (t : List Char) :
    ∀ (occs : List Occ) (m : FieldMap),
      posPass t occs m =
        (specEntries t occs).foldl (fun acc fv => setField fv.1 fv.2 acc) m := by
  have hnorm : ∀ raw : List Char, procVal raw = joinWords (raw.dropWhile isSepC) := fun raw => by
    rw [procVal, pyStrip_collapse_eq_joinWords (raw.dropWhile isSepC).length _ (Nat.le_refl _)]
  intro occs
  induction occs with
  | nil => intro m; rfl
  | cons o rest ih =>
    intro m
    cases rest with
    | nil =>
      rw [specEntries_single]
      show (if procVal (sliceL t o.stop t.length) = [] then m
        else setField o.fld ⟨(procVal (sliceL t o.stop t.length)).take 1000⟩ m) = _
      rw [hnorm]
      by_cases hv : joinWords ((sliceL t o.stop t.length).dropWhile isSepC) = []
      · rw [if_pos hv, if_pos hv]
        rfl
      · rw [if_neg hv, if_neg hv]
        rfl
    | cons o2 rs =>
      rw [specEntries_cons2, List.foldl_append]
      show posPass t (o2 :: rs)
        (if procVal (sliceL t o.stop o2.start) = [] then m
         else setField o.fld ⟨(procVal (sliceL t o.stop o2.start)).take 1000⟩ m) = _
      rw [ih, hnorm]
      by_cases hv : joinWords ((sliceL t o.stop o2.start).dropWhile isSepC) = []
      · rw [if_pos hv, if_pos hv]
        rfl
      · rw [if_neg hv, if_neg hv]
        rfl

/-- Claim C9: whenever at least one label occurrence is found, the extractor is
exactly the specification's description of it: sort the case-insensitive label
occurrences by start offset, take each occurrence's value as the span from its
end offset to the next occurrence's start offset (end of text for the last),
strip leading separator characters, collapse internal whitespace to single
spaces (equivalently: join the words with single spaces), cap at 1000
characters, drop empty results, and retry each still-missing vocabulary field
exactly once via its single-field regex. -/
theorem c9_extract_fields_matches_spec (text : String)
    (hocc : occurrencesOf text.toList ≠ []) :
    extract_fields text = extractFieldsSpec text := by
  have h0 : text.toList ≠ [] := by
    intro h
    apply hocc
    rw [h]
    rfl
  show (if text.toList = [] then ([] : FieldMap)
      else if occurrencesOf text.toList = [] then fallbackAll text.toList
      else addFallbacks text.toList
        (posPass text.toList (sortOccs (occurrencesOf text.toList)) [])) =
    (if text.toList = [] then ([] : FieldMap)
      else if occurrencesOf text.toList = [] then fallbackAll text.toList
      else addFallbacks text.toList
        ((specEntries text.toList (sortOccs (occurrencesOf text.toList))).foldl
          (fun acc fv => setField fv.1 fv.2 acc) []))
  rw [if_neg h0, if_neg hocc, posPass_eq_spec, if_neg h0, if_neg hocc]

theorem c9_witness :
    occurrencesOf ("Date: 2024").toList ≠ [] ∧
    extract_fields "Date: 2024" = extractFieldsSpec "Date: 2024" :=
  ⟨by decide, c9_extract_fields_matches_spec "Date: 2024" (by decide)⟩

theorem pyInt_round : ∀ n : Nat, n ≤ 100 →
    pyIntOfString (decimalOfNat n) = some (Int.ofNat n) := by decide

theorem lookup_cons_ne {k a : String} (v : String) (h : Hash) (hne : (a == k) = false) :
    ((k, v) :: h).lookup a = h.lookup a := by
  rw [List.lookup_cons, hne]

theorem hashOK_nil : HashOK [] 0 false :=
  ⟨fun _ => ⟨rfl, rfl⟩, rfl, rfl⟩

theorem get_progress_of_hashOK {h : Hash} {p : Int} {d : Bool} (hOK : HashOK h p d) :
    get_progress_data (some h) = ⟨p, d, h.lookup "csv_filename"⟩ := by
  obtain ⟨hnil, hp, hd⟩ := hOK
  by_cases h0 : h = []
  · obtain ⟨hp0, hd0⟩ := hnil h0
    subst h0
    rw [hp0, hd0]
    rfl
  · rcases hlp : h.lookup "percent" with _ | s <;>
      rcases hld : h.lookup "done" with _ | s2 <;>
      simp only [hlp] at hp <;> simp only [hld] at hd <;>
      simp only [get_progress_data, if_neg h0, hlp, hld, hp, hd]

theorem applyWrite_lookup_percent (h : Hash) (w : PWrite) :
    (applyWrite h w).lookup "percent" =
      match w.percent with
      | some q => some (intToDecimal q)
      | none => h.lookup "percent" := by
  rcases w with ⟨wp, wc, wd⟩
  rcases wp with _ | q <;> rcases wc with _ | c <;> rcases wd with _ | b <;>
    simp [applyWrite, List.lookup_cons]

theorem applyWrite_lookup_done (h : Hash) (w : PWrite) :
    (applyWrite h w).lookup "done" =
      match w.done with
      | some b => some (if b then "1" else "0")
      | none => h.lookup "done" := by
  rcases w with ⟨wp, wc, wd⟩
  rcases wp with _ | q <;> rcases wc with _ | c <;> rcases wd with _ | b <;>
    simp [applyWrite, List.lookup_cons]

theorem applyWrite_eq_nil {h : Hash} {w : PWrite} (hnil : applyWrite h w = []) :
    h = [] ∧ w.percent = none ∧ w.done = none := by
  rcases w with ⟨wp, wc, wd⟩
  rcases wp with _ | q <;> rcases wc with _ | c <;> rcases wd with _ | b <;>
    simp [applyWrite] at hnil <;> exact ⟨hnil, rfl, rfl⟩

theorem hashOK_apply {h : Hash} {p : Int} {d : Bool} (hOK : HashOK h p d) (w : PWrite)
    (hperc : ∀ q, w.percent = some q → ∃ n : Nat, n ≤ 100 ∧ q = (n : Int)) :
    HashOK (applyWrite h w) (w.percent.getD p) (w.done.getD d) := by
  obtain ⟨hnil, hp, hd⟩ := hOK
  refine ⟨?_, ?_, ?_⟩
  · intro h0
    obtain ⟨hh, hwp, hwd⟩ := applyWrite_eq_nil h0
    rw [hwp, hwd]
    simpa using hnil hh
  · rw [applyWrite_lookup_percent]
    rcases hwp : w.percent with _ | q
    · simpa using hp
    · obtain ⟨n, hn, rfl⟩ := hperc q hwp
      simp only [Option.getD_some]
      exact pyInt_round n hn
  · rw [applyWrite_lookup_done]
    rcases hwd : w.done with _ | b
    · simpa using hd
    · rcases b with _ | _ <;> simp only [Option.getD_some] <;> decide

theorem scanl_head_some (f : Hash → PWrite → Hash) (b : Hash) (l : List PWrite) :
    (List.scanl f b l).head? = some b := by
  cases l <;> simp [List.scanl_nil, List.scanl_cons]

/-- Along any valid write sequence, the records successive reads return form a
pollerStep chain: percent never decreases and done never reverts. -/
theorem chain_obs : ∀ (ws : List PWrite) (h : Hash) (p : Int) (d : Bool),
    HashOK h p d → writesOK p d ws →
    List.Chain' pollerStep
      ((ws.scanl applyWrite h).map fun hh => get_progress_data (some hh)) := by
  intro ws
  induction ws with
  | nil =>
    intro h p d _ _
    simp [List.scanl_nil]
  | cons w ws ih =>
    intro h p d hOK wOK
    obtain ⟨hq, hg, wtail⟩ := wOK
    have hOK2 := hashOK_apply hOK w (fun q hq2 => (hq q hq2).2)
    rw [List.scanl_cons]
    simp only [List.singleton_append, List.map_cons]
    refine List.chain'_cons'.mpr ⟨?_, ih _ _ _ hOK2 wtail⟩
    intro x hx
    rw [List.head?_map, scanl_head_some] at hx
    simp at hx
    subst hx
    rw [get_progress_of_hashOK hOK, get_progress_of_hashOK hOK2]
    refine ⟨?_, ?_⟩
    · rcases hwp : w.percent with _ | q
      · simp
      · simpa using (hq q hwp).1
    · intro hdt
      rcases hwd : w.done with _ | b
      · simpa using hdt
      · rcases b with _ | _
        · exact absurd hwd (hg (by simpa using hdt))
        · simp

theorem writesOK_append {ws1 : List PWrite} : ∀ {p : Int} {d : Bool} {ws2 : List PWrite},
    writesOK p d (ws1 ++ ws2) ↔
      writesOK p d ws1 ∧
        writesOK (ws1.foldl (fun pp ww => ww.percent.getD pp) p)
                 (ws1.foldl (fun dd ww => ww.done.getD dd) d) ws2 := by
  induction ws1 with
  | nil => intro p d ws2; simp [writesOK]
  | cons w ws ih =>
    intro p d ws2
    constructor
    · rintro ⟨h1, h2, h3⟩
      obtain ⟨h4, h5⟩ := ih.mp h3
      exact ⟨⟨h1, h2, h4⟩, h5⟩
    · rintro ⟨⟨h1, h2, h4⟩, h5⟩
      exact ⟨h1, h2, ih.mpr ⟨h4, h5⟩⟩

theorem pagesOK (N : Nat) (hN : 0 < N) :
    ∀ (m : Nat), m ≤ N → ∀ d : Bool,
      writesOK 0 d ((List.range m).map fun i =>
        (⟨some (loopPercent (i + 1) N), none, none⟩ : PWrite)) ∧
      (((List.range m).map fun i =>
        (⟨some (loopPercent (i + 1) N), none, none⟩ : PWrite)).foldl
          (fun pp ww => ww.percent.getD pp) 0) = loopPercent m N ∧
      (((List.range m).map fun i =>
        (⟨some (loopPercent (i + 1) N), none, none⟩ : PWrite)).foldl
          (fun dd ww => ww.done.getD dd) d) = d := by
  intro m
  induction m with
  | zero =>
    intro _ d
    refine ⟨trivial, ?_, rfl⟩
    simp [loopPercent]
  | succ m ih =>
    intro hm d
    obtain ⟨ihOK, ihP, ihD⟩ := ih (by omega) d
    have hbound : (m + 1) * 100 / N ≤ 100 := by
      have := loopPercent_le (N := N) (k := m + 1) hm hN
      rw [loopPercent] at this
      exact_mod_cast this
    rw [List.range_succ, List.map_append, List.map_singleton]
    refine ⟨?_, ?_, ?_⟩
    · rw [writesOK_append, ihP, ihD]
      refine ⟨ihOK, ?_, ?_, trivial⟩
      · intro q hqe
        simp only [Option.some.injEq] at hqe
        subst hqe
        exact ⟨loopPercent_mono N (by omega), (m + 1) * 100 / N, hbound, rfl⟩
      · intro _
        simp
    · rw [List.foldl_append, ihP]
      rfl
    · rw [List.foldl_append, ihD]
      rfl

theorem writesOK_job_ok (N : Nat) (name : String) (hN : 0 < N) :
    writesOK 0 false (initWrite :: run_validation_local (.ok name N)) := by
  obtain ⟨hpOK, hpP, hpD⟩ := pagesOK N hN N (Nat.le_refl N) false
  have hfin : ∀ (d : Bool), writesOK 100 d [finalizeWrite name] := by
    intro d
    refine ⟨?_, ?_, trivial⟩
    · intro q hqe
      simp only [finalizeWrite, Option.some.injEq] at hqe
      subst hqe
      exact ⟨le_refl _, 100, le_refl _, rfl⟩
    · intro _
      simp [finalizeWrite]
  refine ⟨?_, ?_, ?_⟩
  · intro q hqe
    simp only [initWrite, Option.some.injEq] at hqe
    subst hqe
    exact ⟨le_refl _, 0, by omega, rfl⟩
  · intro hcon
    cases hcon
  · show writesOK 0 false ((pageWrites N ++ [finalizeWrite name]) ++ [finalizeWrite name])
    rw [writesOK_append, writesOK_append, List.foldl_append, List.foldl_append,
      pageWrites, hpP, hpD, loopPercent_self hN]
    exact ⟨⟨hpOK, hfin false⟩, hfin true⟩

theorem writesOK_job_fail (N m : Nat) (wr : Bool) (n : String) (hN : 0 < N) (hm : m ≤ N) :
    writesOK 0 false (initWrite :: run_validation_local (.fail N m wr n)) := by
  obtain ⟨hpOK, hpP, hpD⟩ := pagesOK N hN m hm false
  have htake : (pageWrites N).take m = (List.range m).map fun i =>
      (⟨some (loopPercent (i + 1) N), none, none⟩ : PWrite) := by
    rw [pageWrites, ← List.map_take, List.take_range, Nat.min_eq_left hm]
  refine ⟨?_, ?_, ?_⟩
  · intro q hqe
    simp only [initWrite, Option.some.injEq] at hqe
    subst hqe
    exact ⟨le_refl _, 0, by omega, rfl⟩
  · intro hcon
    cases hcon
  · show writesOK 0 false ((pageWrites N).take m ++
      [⟨some 100, if wr then some n else none, some true⟩])
    rw [htake, writesOK_append, hpP, hpD]
    refine ⟨hpOK, ?_, ?_, trivial⟩
    · intro q hqe
      simp only [Option.some.injEq] at hqe
      subst hqe
      exact ⟨loopPercent_le hm hN, 100, le_refl _, rfl⟩
    · intro _
      simp

/-- Claim C6: along one job's write sequence (the initial zero write, the
streaming loop's writes, then the terminal write or writes), every pair of
successive or non-successive reads a poller can make is related by pollerStep:
the percent is non-decreasing, and once a read returns done = true every later
read does too, on the success trace and on every failure trace alike. -/
theorem c6_poller_monotone :
    (∀ (N : Nat) (name : String), 0 < N →
      List.Pairwise pollerStep
        (observations (initWrite :: run_validation_local (.ok name N)))) ∧
    (∀ (N m : Nat) (wr : Bool) (n : String), 0 < N → m ≤ N →
      List.Pairwise pollerStep
        (observations (initWrite :: run_validation_local (.fail N m wr n)))) := by
  constructor
  · intro N name hN
    rw [observations, ledgerStates]
    exact List.chain'_iff_pairwise.mp
      (chain_obs _ [] 0 false hashOK_nil (writesOK_job_ok N name hN))
  · intro N m wr n hN hm
    rw [observations, ledgerStates]
    exact List.chain'_iff_pairwise.mp
      (chain_obs _ [] 0 false hashOK_nil (writesOK_job_fail N m wr n hN hm))

theorem c6_witness :
    List.Pairwise pollerStep
      (observations (initWrite :: run_validation_local (.ok "r.csv" 2))) :=
  c6_poller_monotone.1 2 "r.csv" (by decide)

end QAV
